import Mathlib

/-!
Shallow embedding of the `kv` package: a byte-oriented key-value store with
TTL expiry over two backends (an in-process map in `memory.go` and a
PostgreSQL-backed table in `postgres.go`), plus the AES-256-GCM encryptor of
`aes_encryptor.go`.

Go byte strings (`string`, `[]byte`) are modelled as `List Nat` of byte
values; timestamps and durations (`time.Time`, `time.Duration`) as `Int`,
with each operation taking the current time `now` explicitly where the code
calls `time.Now()`.  Fallible operations return `Except`.
-/

/-- Go `[]byte` / `string`: a list of byte values. -/
abbrev Bytes := List Nat

/-- Errors surfaced by store reads (`kv.ErrNotFound`). -/
inductive KvError where
  | notFound
deriving DecidableEq

/-- A Go runtime panic relevant to this package: `close` of an
already-closed channel. -/
inductive GoPanic where
  | closeOfClosedChannel
deriving DecidableEq

/-! ## FNV-1a key digest (`postgres.go` `hashKey`) -/

/-- FNV-1a 64-bit offset basis. -/
def fnvOffset : Nat := 14695981039346656037

/-- FNV-1a 64-bit prime. -/
def fnvPrime : Nat := 1099511628211

/-- `hashKey` from `postgres.go`: FNV-1a 64-bit digest of the key's bytes.
Go keeps the digest as `int64`; the reinterpretation of the 64-bit pattern
as a signed value preserves equality, so the digest is kept as a `Nat`
below `2^64`. -/
def hashKey (key : Bytes) : Nat :=
  key.foldl (fun h b => ((h ^^^ b % 256) * fnvPrime) % 2 ^ 64) fnvOffset

/-! ## In-process backend (`memory.go`) -/

/-- `item` from `memory.go`: a stored value with optional expiration.
The Go zero `time.Time` (meaning "no expiration") is `none`. -/
structure item where
  value : Bytes
  expiresAt : Option Int
deriving DecidableEq

/-- `item.isExpired`: true iff the item has an expiration time and it has
passed (`!expiresAt.IsZero() && time.Now().After(expiresAt)`). -/
def item.isExpired (i : item) (now : Int) : Bool :=
  match i.expiresAt with
  | none => false
  | some t => decide (t < now)

/-- The `data map[string]*item` field, as an association list with at most
one binding per key (Go map indexing and assignment are embedded by
`mapGet` / `mapSet`). -/
abbrev MemData := List (Bytes × item)

/-- Go map read `s.data[key]`. -/
def mapGet (d : MemData) (k : Bytes) : Option item :=
  (d.find? (fun p => decide (p.1 = k))).map (fun p => p.2)

/-- Go map assignment `s.data[key] = i`: replace the existing binding in
place, or append a fresh one. -/
def mapSet (d : MemData) (k : Bytes) (i : item) : MemData :=
  if d.any (fun p => decide (p.1 = k)) then
    d.map (fun p => if p.1 = k then (k, i) else p)
  else
    d ++ [(k, i)]

/-- `MemoryStore`: the map plus the state of the `close` channel (`true`
once the channel has been closed). -/
structure MemoryStore where
  data : MemData
  closeChanClosed : Bool
deriving DecidableEq

/-- `MemoryStore.Get`: returns `ErrNotFound` if the key is absent or the
item has expired, else the stored value. -/
def MemoryStore.Get (s : MemoryStore) (key : Bytes) (now : Int) : Except KvError Bytes :=
  match mapGet s.data key with
  | none => .error .notFound
  | some i => if i.isExpired now then .error .notFound else .ok i.value

/-- `MemoryStore.Set`: stores the value; `expiresAt` is set only when
`ttl > 0`.  The Go method always returns `nil`, so only the new state is
returned. -/
def MemoryStore.Set (s : MemoryStore) (key value : Bytes) (ttl now : Int) : MemoryStore :=
  { s with data := mapSet s.data key ⟨value, if ttl > 0 then some (now + ttl) else none⟩ }

/-- The `current` value handed to the transform inside
`MemoryStore.Update`: `nil` (here `none`) unless the key is present and not
expired. -/
def MemoryStore.currentValue (s : MemoryStore) (key : Bytes) (now : Int) : Option Bytes :=
  match mapGet s.data key with
  | some i => if i.isExpired now then none else some i.value
  | none => none

/-- `MemoryStore.Update`: reads the current value, applies `fn`, and on
success stores the new value with the given ttl; on error from `fn` it
returns that error with the state untouched.  The whole body runs under the
store's exclusive lock, so it is embedded as one state transition. -/
def MemoryStore.Update {α : Type} (s : MemoryStore) (key : Bytes) (ttl : Int)
    (fn : Option Bytes → Except α Bytes) (now : Int) : Except α Unit × MemoryStore :=
  match fn (s.currentValue key now) with
  | .error e => (.error e, s)
  | .ok newValue =>
      (.ok (), { s with data := mapSet s.data key ⟨newValue, if ttl > 0 then some (now + ttl) else none⟩ })

/-- `MemoryStore.Delete`: removes the binding; no-op when absent. -/
def MemoryStore.Delete (s : MemoryStore) (key : Bytes) : MemoryStore :=
  { s with data := s.data.filter (fun p => !decide (p.1 = key)) }

/-- `MemoryStore.Keys`: every non-expired key that starts with `pfx`
(every non-expired key when `pfx` is empty). -/
def MemoryStore.Keys (s : MemoryStore) (pfx : Bytes) (now : Int) : List Bytes :=
  ((s.data.filter (fun p =>
      !(p.2.isExpired now) && (pfx.isEmpty || pfx.isPrefixOf p.1))).map (fun p => p.1))

/-- `MemoryStore.Close`: `close(s.close)` — panics if the channel is
already closed, else marks it closed and returns `nil`. -/
def MemoryStore.Close (s : MemoryStore) : Except GoPanic MemoryStore :=
  if s.closeChanClosed then .error .closeOfClosedChannel
  else .ok { s with closeChanClosed := true }

example : MemoryStore.Get (MemoryStore.Set ⟨[], false⟩ [1, 2] [9] 0 5) [1, 2] 100 = .ok [9] := by
  rfl

/-! ## Relational backend (`postgres.go`)

The SQL statements of `postgres.go` are embedded over a list of rows of the
table created by `CreateTable` (`key_hash BIGINT PRIMARY KEY, key TEXT,
value, expires_at TIMESTAMPTZ, updated_at TIMESTAMPTZ`).  The embedding
covers the encryptor-nil configuration: every claim about this backend
concerns unencrypted operation, so the `s.encryptor != nil` branches of the
Go code are never taken.  The `value` column is treated as byte-faithful
(the BYTEA semantics; JSONB text normalization is behaviour of the database
engine, outside this embedding). -/

/-- One row of the store table. -/
structure PgRow where
  keyHash : Nat
  key : Bytes
  value : Bytes
  expiresAt : Option Int
  updatedAt : Int
deriving DecidableEq

/-- `PostgresStore`: the table rows plus the state of the `cleanupClose`
channel (`true` once closed). -/
structure PostgresStore where
  table : List PgRow
  cleanupCloseClosed : Bool
deriving DecidableEq

/-- The SQL filter `expires_at IS NULL OR expires_at > NOW()`. -/
def rowLive (r : PgRow) (now : Int) : Bool :=
  match r.expiresAt with
  | none => true
  | some t => decide (now < t)

/-- The SQL filter `key_hash = $1 AND key = $2` combined with `rowLive`,
as used by `Get` and by the locking read of `Update`. -/
def rowMatches (r : PgRow) (key : Bytes) (now : Int) : Bool :=
  decide (r.keyHash = hashKey key) && decide (r.key = key) && rowLive r now

/-- `PostgresStore.Get`: select by digest and exact key among live rows;
`pgx.ErrNoRows` becomes `ErrNotFound`. -/
def PostgresStore.Get (s : PostgresStore) (key : Bytes) (now : Int) : Except KvError Bytes :=
  match s.table.find? (fun r => rowMatches r key now) with
  | some r => .ok r.value
  | none => .error .notFound

/-- The upsert `INSERT ... ON CONFLICT (key_hash) DO UPDATE SET value =
EXCLUDED.value, expires_at = EXCLUDED.expires_at, updated_at = NOW()`:
the conflict target is the digest alone, and the `key` column of an
existing row is left unchanged. -/
def pgUpsert (t : List PgRow) (h : Nat) (key value : Bytes) (expiresAt : Option Int)
    (now : Int) : List PgRow :=
  if t.any (fun r => decide (r.keyHash = h)) then
    t.map (fun r => if r.keyHash = h then
      { r with value := value, expiresAt := expiresAt, updatedAt := now } else r)
  else
    t ++ [⟨h, key, value, expiresAt, now⟩]

/-- `PostgresStore.Set`: upsert keyed by the digest; `expires_at` is NULL
unless `ttl > 0`. -/
def PostgresStore.Set (s : PostgresStore) (key value : Bytes) (ttl now : Int) : PostgresStore :=
  { s with table :=
      pgUpsert s.table (hashKey key) key value (if ttl > 0 then some (now + ttl) else none) now }

/-- The `current` value handed to the transform inside
`PostgresStore.Update`: the locking read's result, `nil` (here `none`) when
`SELECT ... FOR UPDATE` returns no live row. -/
def PostgresStore.currentValue (s : PostgresStore) (key : Bytes) (now : Int) : Option Bytes :=
  (s.table.find? (fun r => rowMatches r key now)).map (fun r => r.value)

/-- `PostgresStore.Update`: inside a transaction, locking read, transform,
upsert, commit; an error from the transform rolls the transaction back,
returning that error with the table untouched. -/
def PostgresStore.Update {α : Type} (s : PostgresStore) (key : Bytes) (ttl : Int)
    (fn : Option Bytes → Except α Bytes) (now : Int) : Except α Unit × PostgresStore :=
  match fn (s.currentValue key now) with
  | .error e => (.error e, s)
  | .ok newValue =>
      let t2 := pgUpsert s.table (hashKey key) key newValue
        (if ttl > 0 then some (now + ttl) else none) now
      (.ok (), { s with table := t2 })

/-- `PostgresStore.Delete`: `DELETE ... WHERE key_hash = $1 AND key = $2`. -/
def PostgresStore.Delete (s : PostgresStore) (key : Bytes) : PostgresStore :=
  { s with table :=
      s.table.filter (fun r => !(decide (r.keyHash = hashKey key) && decide (r.key = key))) }

/-- SQL `LIKE` matching as used by `Keys`: in the pattern, byte 37 (`%`)
matches any sequence of bytes, byte 95 (`_`) matches any single byte, and
every other byte matches itself.  There is no escape character in the
query, so `%` and `_` occurring in the caller's prefix act as wildcards. -/
def likeMatch : Bytes → Bytes → Bool
  | [], s => s.isEmpty
  | 37 :: ps, s => s.tails.any (fun s2 => likeMatch ps s2)
  | 95 :: _, [] => false
  | 95 :: ps, _ :: s => likeMatch ps s
  | _ :: _, [] => false
  | p :: ps, c :: s => decide (p = c) && likeMatch ps s

/-- Bytewise lexicographic comparison of key strings, the ordering of
`ORDER BY key` (C collation on byte strings). -/
def lexLeB : Bytes → Bytes → Bool
  | [], _ => true
  | _ :: _, [] => false
  | a :: as, b :: bs => if a < b then true else if a = b then lexLeB as bs else false

/-- `lexLeB` as a relation, for sorting. -/
def keyLe (x y : Bytes) : Prop := lexLeB x y = true

instance : DecidableRel keyLe := fun x y =>
  inferInstanceAs (Decidable (lexLeB x y = true))

/-- `PostgresStore.Keys`: with an empty prefix, all live keys ordered by
key; otherwise the rows whose key matches `LIKE prefix || '%'`, ordered by
key.  `ORDER BY key` is embedded as a sort by `keyLe`. -/
def PostgresStore.Keys (s : PostgresStore) (pfx : Bytes) (now : Int) : List Bytes :=
  if pfx.isEmpty then
    List.insertionSort keyLe ((s.table.filter (fun r => rowLive r now)).map (fun r => r.key))
  else
    List.insertionSort keyLe
      ((s.table.filter (fun r => likeMatch (pfx ++ [37]) r.key && rowLive r now)).map
        (fun r => r.key))

/-- `PostgresStore.Cleanup`: `DELETE ... WHERE expires_at IS NOT NULL AND
expires_at <= NOW()`, returning the number of rows removed. -/
def PostgresStore.Cleanup (s : PostgresStore) (now : Int) : Int × PostgresStore :=
  let kept := s.table.filter (fun r =>
    match r.expiresAt with
    | none => true
    | some t => decide (now < t))
  ((s.table.length : Int) - kept.length, { s with table := kept })

/-- `PostgresStore.Close`: `close(s.cleanupClose)` — panics if already
closed — then waits on `cleanupDone` and returns `nil`. -/
def PostgresStore.Close (s : PostgresStore) : Except GoPanic PostgresStore :=
  if s.cleanupCloseClosed then .error .closeOfClosedChannel
  else .ok { s with cleanupCloseClosed := true }

example : PostgresStore.Get (PostgresStore.Set ⟨[], false⟩ [1, 2] [9] 0 5) [1, 2] 100 = .ok [9] := by
  rfl

example : likeMatch ([97, 95] ++ [37]) [97, 98, 99] = true := by rfl

example : List.isPrefixOf [97, 95] [97, 98, 99] = false := by rfl

/-! ## AES-256-GCM encryptor (`aes_encryptor.go`)

`crypto/cipher`'s GCM is embedded structurally over the keyed forward block
function: counter-mode keystream XORed into the plaintext, followed by a
16-byte authentication tag that is a deterministic function of the block
function, the nonce and the ciphertext.  GCM never runs the block cipher
backwards, so every property proved below holds for an arbitrary block
function. -/

/-- `gcm.NonceSize()`: 96-bit nonce. -/
def nonceSize : Nat := 12

/-- GCM tag length: 128 bits. -/
def tagSize : Nat := 16

/-- A 32-bit big-endian counter block suffix. -/
def counterBytes (i : Nat) : Bytes :=
  [i / 2 ^ 24 % 256, i / 2 ^ 16 % 256, i / 2 ^ 8 % 256, i % 256]

/-- Byte `j` of the CTR keystream: byte `j % 16` of the block cipher
applied to `nonce ‖ counter`, counters starting at 2 as in GCM. -/
def ksByte (E : Bytes → Bytes) (nonce : Bytes) (j : Nat) : Nat :=
  (E (nonce ++ counterBytes (2 + j / 16))).getD (j % 16) 0 % 256

/-- The first `n` bytes of the CTR keystream. -/
def keystream (E : Bytes → Bytes) (nonce : Bytes) (n : Nat) : Bytes :=
  (List.range n).map (ksByte E nonce)

/-- The 16-byte authentication tag over the ciphertext: a deterministic
function of the block function, nonce, ciphertext length and ciphertext. -/
def gcmTag (E : Bytes → Bytes) (nonce ct : Bytes) : Bytes :=
  ((E (nonce ++ counterBytes ct.length ++ ct)).map (fun b => b % 256)
    ++ List.replicate tagSize 0).take tagSize

/-- `gcm.Seal(nil, nonce, plaintext, nil)`: ciphertext (plaintext XOR
keystream) with the authentication tag appended. -/
def gcmSeal (E : Bytes → Bytes) (nonce pt : Bytes) : Bytes :=
  List.zipWith Nat.xor pt (keystream E nonce pt.length)
    ++ gcmTag E nonce (List.zipWith Nat.xor pt (keystream E nonce pt.length))

/-- `gcm.Open(nil, nonce, data, nil)`: fails when the data cannot hold a
tag or the recomputed tag differs; otherwise XORs the keystream back. -/
def gcmOpen (E : Bytes → Bytes) (nonce data : Bytes) : Except String Bytes :=
  if data.length < tagSize then .error "ciphertext too short for tag"
  else if data.drop (data.length - tagSize)
      = gcmTag E nonce (data.take (data.length - tagSize)) then
    .ok (List.zipWith Nat.xor (data.take (data.length - tagSize))
      (keystream E nonce (data.take (data.length - tagSize)).length))
  else .error "message authentication failed"

/-- `AESEncryptor`: holds the AEAD, embedded as the keyed forward block
function AES-256 provides to GCM. -/
structure AESEncryptor where
  blockE : Bytes → Bytes

/-- `AESEncryptor.Encrypt`: draws a fresh nonce (passed explicitly here,
standing for the 12 random bytes read from `crypto/rand`) and returns
`gcm.Seal(nonce, nonce, plaintext, nil)`, i.e. the nonce prepended to
ciphertext-plus-tag. -/
def AESEncryptor.Encrypt (e : AESEncryptor) (nonce pt : Bytes) : Bytes :=
  nonce ++ gcmSeal e.blockE nonce pt

/-- `AESEncryptor.Decrypt`: rejects inputs shorter than the nonce, then
splits nonce from ciphertext-plus-tag and opens. -/
def AESEncryptor.Decrypt (e : AESEncryptor) (data : Bytes) : Except String Bytes :=
  if data.length < nonceSize then .error "ciphertext too short"
  else gcmOpen e.blockE (data.take nonceSize) (data.drop nonceSize)

/-- Modelled from the spec: `aes.NewCipher` and `cipher.NewGCM` are Go
standard-library code outside this repository; for a 32-byte key both
succeed, yielding the keyed AES-256 forward block function.  Every theorem
below is proved for an arbitrary block function, so its internal structure
is immaterial; it is embedded as a keyed injection. -/
def aesForward (key : Bytes) : Bytes → Bytes := fun block => key ++ block

/-- `NewAESEncryptor`: fails unless the key is exactly 32 bytes, otherwise
wraps the keyed AES-256-GCM AEAD. -/
def NewAESEncryptor (key : Bytes) : Except String AESEncryptor :=
  if key.length ≠ 32 then .error "key must be exactly 32 bytes for AES-256"
  else .ok ⟨aesForward key⟩

example : AESEncryptor.Decrypt ⟨fun b => b⟩
    (AESEncryptor.Encrypt ⟨fun b => b⟩ (List.replicate 12 0) [5, 6, 7]) = .ok [5, 6, 7] := by
  rfl

/-! ## Order facts for `keyLe` -/

theorem lexLeB_total : ∀ x y : Bytes, lexLeB x y = true ∨ lexLeB y x = true := by
  intro x
  induction x with
  | nil => intro y; left; rfl
  | cons a as ih =>
      intro y
      cases y with
      | nil => right; rfl
      | cons b bs =>
          rcases Nat.lt_trichotomy a b with h | h | h
          · left; simp [lexLeB, h]
          · subst h
            rcases ih bs with h2 | h2
            · left; simp [lexLeB, h2]
            · right; simp [lexLeB, h2]
          · right; simp [lexLeB, h]

theorem lexLeB_trans :
    ∀ x y z : Bytes, lexLeB x y = true → lexLeB y z = true → lexLeB x z = true := by
  intro x
  induction x with
  | nil => intro y z _ _; rfl
  | cons a as ih =>
      intro y z hxy hyz
      cases y with
      | nil => simp [lexLeB] at hxy
      | cons b bs =>
          cases z with
          | nil => simp [lexLeB] at hyz
          | cons c cs =>
              simp only [lexLeB] at hxy hyz ⊢
              split at hxy
              · split at hyz
                · simp [show a < c by omega]
                · split at hyz
                  · simp [show a < c by omega]
                  · exact absurd hyz (by simp)
              · split at hxy
                · split at hyz
                  · simp [show a < c by omega]
                  · split at hyz
                    · have : a = c := by omega
                      simp [this, ih bs cs hxy hyz]
                    · exact absurd hyz (by simp)
                · exact absurd hxy (by simp)

instance : IsTotal Bytes keyLe := ⟨lexLeB_total⟩

instance : IsTrans Bytes keyLe := ⟨lexLeB_trans⟩

/-! ## Map and upsert lemmas -/

theorem find?_map_replace (k : Bytes) (i : item) :
    ∀ d : MemData, d.any (fun p => decide (p.1 = k)) = true →
      ((d.map (fun p => if p.1 = k then (k, i) else p)).find?
        (fun p => decide (p.1 = k))) = some (k, i) := by
  intro d
  induction d with
  | nil => intro h; simp at h
  | cons p ps ih =>
      intro h
      by_cases hp : p.1 = k
      · simp [List.find?, hp]
      · simp only [List.any_cons, Bool.or_eq_true, decide_eq_true_eq] at h
        rcases h with h | h
        · exact absurd h hp
        · simp only [List.map_cons, if_neg hp, List.find?]
          rw [decide_eq_false hp]
          exact ih h

theorem find?_append_single (k : Bytes) (i : item) :
    ∀ d : MemData, d.any (fun p => decide (p.1 = k)) = false →
      ((d ++ [(k, i)]).find? (fun p => decide (p.1 = k))) = some (k, i) := by
  intro d
  induction d with
  | nil => intro _; simp [List.find?]
  | cons p ps ih =>
      intro h
      simp only [List.any_cons, Bool.or_eq_false_iff, decide_eq_false_iff_not] at h
      simp only [List.cons_append, List.find?]
      rw [decide_eq_false h.1]
      exact ih (by simpa using h.2)

/-- Go map read-after-write: `m[k] = i` makes `m[k]` yield `i`. -/
theorem mapGet_mapSet_self (d : MemData) (k : Bytes) (i : item) :
    mapGet (mapSet d k i) k = some i := by
  unfold mapGet mapSet
  split
  · rename_i h; rw [find?_map_replace k i d h]; rfl
  · rename_i h
    rw [find?_append_single k i d (Bool.eq_false_iff.mpr h)]; rfl

/-- The fresh or rewritten row produced by an upsert of `(k, v)` with
expiry `e` at time `now1`. -/
def upsertRow (k v : Bytes) (e : Option Int) (now1 : Int) : PgRow :=
  ⟨hashKey k, k, v, e, now1⟩

theorem rowMatches_upsertRow (k v : Bytes) (e : Option Int) (now1 now2 : Int)
    (hlive : rowLive (upsertRow k v e now1) now2 = true) :
    rowMatches (upsertRow k v e now1) k now2 = true := by
  unfold upsertRow at hlive ⊢
  simp [rowMatches, hlive]

theorem pg_find?_map_replace (k v : Bytes) (e : Option Int) (now1 now2 : Int)
    (hlive : rowLive (upsertRow k v e now1) now2 = true) :
    ∀ t : List PgRow, (∀ r ∈ t, r.keyHash = hashKey k → r.key = k) →
      t.any (fun r => decide (r.keyHash = hashKey k)) = true →
      ((t.map (fun r => if r.keyHash = hashKey k then
          { r with value := v, expiresAt := e, updatedAt := now1 } else r)).find?
        (fun r => rowMatches r k now2)) = some (upsertRow k v e now1) := by
  intro t
  induction t with
  | nil => intro _ h; simp at h
  | cons r rs ih =>
      intro hcol h
      by_cases hr : r.keyHash = hashKey k
      · have hkey : r.key = k := hcol r (by simp) hr
        have hrow : ({ r with value := v, expiresAt := e, updatedAt := now1 } : PgRow)
            = upsertRow k v e now1 := by
          simp [upsertRow, hr, hkey]
        simp only [List.map_cons, if_pos hr, List.find?, hrow,
          rowMatches_upsertRow k v e now1 now2 hlive]
      · simp only [List.any_cons, Bool.or_eq_true, decide_eq_true_eq] at h
        rcases h with h | h
        · exact absurd h hr
        · have hm : rowMatches r k now2 = false := by
            simp [rowMatches, decide_eq_false hr]
          simp only [List.map_cons, if_neg hr, List.find?, hm]
          exact ih (fun r2 hm2 => hcol r2 (by simp [hm2])) h

theorem pg_find?_append_single (k v : Bytes) (e : Option Int) (now1 now2 : Int)
    (hlive : rowLive (upsertRow k v e now1) now2 = true) :
    ∀ t : List PgRow, t.any (fun r => decide (r.keyHash = hashKey k)) = false →
      ((t ++ [upsertRow k v e now1]).find? (fun r => rowMatches r k now2))
        = some (upsertRow k v e now1) := by
  intro t
  induction t with
  | nil =>
      intro _
      simp only [List.nil_append, List.find?,
        rowMatches_upsertRow k v e now1 now2 hlive]
  | cons r rs ih =>
      intro h
      simp only [List.any_cons, Bool.or_eq_false_iff, decide_eq_false_iff_not] at h
      have hm : rowMatches r k now2 = false := by
        simp [rowMatches, decide_eq_false h.1]
      simp only [List.cons_append, List.find?, hm]
      exact ih (by simpa using h.2)

theorem pg_find?_upsert (k v : Bytes) (e : Option Int) (now1 now2 : Int)
    (t : List PgRow) (hcol : ∀ r ∈ t, r.keyHash = hashKey k → r.key = k)
    (hlive : rowLive (upsertRow k v e now1) now2 = true) :
    ((pgUpsert t (hashKey k) k v e now1).find? (fun r => rowMatches r k now2))
      = some (upsertRow k v e now1) := by
  unfold pgUpsert
  split
  · rename_i h
    exact pg_find?_map_replace k v e now1 now2 hlive t hcol h
  · rename_i h
    exact pg_find?_append_single k v e now1 now2 hlive t (Bool.eq_false_iff.mpr h)

/-- Relational read-after-write: on a table where every row carrying this
key's digest carries this very key, `Set` with no expiry followed by `Get`
finds the written value. -/
theorem pgGet_after_set (s : PostgresStore) (k v : Bytes) (now1 now2 : Int)
    (hcol : ∀ r ∈ s.table, r.keyHash = hashKey k → r.key = k) :
    PostgresStore.Get (PostgresStore.Set s k v 0 now1) k now2 = .ok v := by
  unfold PostgresStore.Get PostgresStore.Set
  simp only [show ¬((0 : Int) > 0) from by omega, if_false]
  rw [pg_find?_upsert k v none now1 now2 s.table hcol (by simp [rowLive, upsertRow])]
  rfl

/-! ## GCM round-trip lemmas -/

theorem keystream_length (E : Bytes → Bytes) (nonce : Bytes) (n : Nat) :
    (keystream E nonce n).length = n := by
  simp [keystream]

theorem gcmTag_length (E : Bytes → Bytes) (nonce ct : Bytes) :
    (gcmTag E nonce ct).length = tagSize := by
  simp [gcmTag]

theorem zipWith_xor_cancel :
    ∀ pt ks : Bytes, pt.length ≤ ks.length →
      List.zipWith Nat.xor (List.zipWith Nat.xor pt ks) ks = pt := by
  intro pt
  induction pt with
  | nil => intro ks _; simp
  | cons a as ih =>
      intro ks h
      cases ks with
      | nil => simp at h
      | cons b bs =>
          simp only [List.zipWith]
          have hx : Nat.xor (Nat.xor a b) b = a := Nat.xor_cancel_right b a
          rw [hx, ih bs (by simpa using h)]

theorem gcmOpen_tagged (E : Bytes → Bytes) (nonce : Bytes) :
    ∀ ct tag : Bytes, tag = gcmTag E nonce ct → tag.length = tagSize →
      gcmOpen E nonce (ct ++ tag)
        = .ok (List.zipWith Nat.xor ct (keystream E nonce ct.length)) := by
  intro ct tag htag htlen
  unfold gcmOpen
  have hlen : (ct ++ tag).length = ct.length + tagSize := by simp [htlen]
  rw [hlen, if_neg (by omega), show ct.length + tagSize - tagSize = ct.length from by omega]
  rw [List.take_append_of_le_length (Nat.le_refl _), List.take_length,
    List.drop_append_of_le_length (Nat.le_refl _), List.drop_length, List.nil_append]
  rw [if_pos htag]

theorem gcmOpen_gcmSeal (E : Bytes → Bytes) (nonce pt : Bytes) :
    gcmOpen E nonce (gcmSeal E nonce pt) = .ok pt := by
  unfold gcmSeal
  rw [gcmOpen_tagged E nonce _ _ rfl (gcmTag_length E nonce _)]
  have hct : (List.zipWith Nat.xor pt (keystream E nonce pt.length)).length = pt.length := by
    simp [keystream_length]
  rw [hct, zipWith_xor_cancel pt (keystream E nonce pt.length) (by simp [keystream_length])]

/-- C6: for every byte string `pt` (including the empty string) and every
fresh 12-byte nonce, `Decrypt` applied to the output of `Encrypt` on the
same `AESEncryptor` succeeds and returns exactly `pt`: `Encrypt` prepends
the nonce, and `Decrypt` splits the nonce off the ciphertext-plus-tag and
opens it.  Proved for every keyed block function, hence for AES-256. -/
theorem aes_encrypt_decrypt_roundtrip (e : AESEncryptor) (nonce pt : Bytes)
    (h : nonce.length = nonceSize) :
    e.Decrypt (e.Encrypt nonce pt) = .ok pt := by
  unfold AESEncryptor.Encrypt AESEncryptor.Decrypt
  rw [← h]
  rw [if_neg (by simp [List.length_append])]
  rw [List.take_append_of_le_length (Nat.le_refl _), List.take_length,
    List.drop_append_of_le_length (Nat.le_refl _), List.drop_length, List.nil_append]
  exact gcmOpen_gcmSeal e.blockE nonce pt

/-- C6 witness: the empty plaintext round-trips through a concrete
encryptor and a concrete all-zero nonce. -/
theorem aes_encrypt_decrypt_roundtrip_witness :
    (List.replicate 12 0).length = nonceSize ∧
      AESEncryptor.Decrypt ⟨fun b => b⟩
        (AESEncryptor.Encrypt ⟨fun b => b⟩ (List.replicate 12 0) []) = .ok [] :=
  ⟨by decide, aes_encrypt_decrypt_roundtrip ⟨fun b => b⟩ (List.replicate 12 0) [] (by decide)⟩

/-- C7: `NewAESEncryptor` succeeds exactly on keys of length 32 and
returns an error (no encryptor) for every other key length. -/
theorem newAESEncryptor_iff_len32 (key : Bytes) :
    (∃ e, NewAESEncryptor key = .ok e) ↔ key.length = 32 := by
  by_cases h : key.length = 32
  · simp [NewAESEncryptor, h]
  · simp [NewAESEncryptor, h]

/-! ## Claim theorems on the stores -/

/-- C1: for every key, ttl and transform, on both backends, when the
transform returns an error `Update` returns that same error and the store
state afterwards equals the store state before the call. -/
theorem update_transform_error_aborts {α : Type} (ms : MemoryStore) (ps : PostgresStore)
    (key : Bytes) (ttl now : Int) (fn : Option Bytes → Except α Bytes) (e : α)
    (hm : fn (ms.currentValue key now) = .error e)
    (hp : fn (ps.currentValue key now) = .error e) :
    ms.Update key ttl fn now = (.error e, ms) ∧ ps.Update key ttl fn now = (.error e, ps) := by
  constructor
  · unfold MemoryStore.Update; rw [hm]
  · unfold PostgresStore.Update; rw [hp]

/-- C1 witness: a transform that always fails leaves a concrete store of
each backend untouched and surfaces its error. -/
theorem update_transform_error_aborts_witness :
    MemoryStore.Update (⟨[], false⟩ : MemoryStore) [1] 0 (fun _ => .error "boom") 0
        = (.error "boom", (⟨[], false⟩ : MemoryStore))
      ∧ PostgresStore.Update (⟨[], false⟩ : PostgresStore) [1] 0 (fun _ => .error "boom") 0
        = (.error "boom", (⟨[], false⟩ : PostgresStore)) :=
  update_transform_error_aborts ⟨[], false⟩ ⟨[], false⟩ [1] 0 0
    (fun _ => .error "boom") "boom" rfl rfl

/-- C2: on the relational backend, after `Set k1 v1 0` then `Set k2 v2 0`
for distinct keys with equal digests, the single shared row keeps key
string `k1` but holds value `v2`; `Get k2` fails `NotFound` while
`Get k1` returns `v2`. -/
theorem pg_digest_collision_overwrite (k1 k2 v1 v2 : Bytes) (now1 now2 now3 : Int) (b : Bool)
    (hne : k1 ≠ k2) (hcol : hashKey k1 = hashKey k2) :
    (PostgresStore.Set (PostgresStore.Set ⟨[], b⟩ k1 v1 0 now1) k2 v2 0 now2).table
        = [⟨hashKey k1, k1, v2, none, now2⟩]
      ∧ PostgresStore.Get
          (PostgresStore.Set (PostgresStore.Set ⟨[], b⟩ k1 v1 0 now1) k2 v2 0 now2) k2 now3
          = .error .notFound
      ∧ PostgresStore.Get
          (PostgresStore.Set (PostgresStore.Set ⟨[], b⟩ k1 v1 0 now1) k2 v2 0 now2) k1 now3
          = .ok v2 := by
  have h0 : ¬((0 : Int) > 0) := by omega
  have hset_table : ∀ (s : PostgresStore) (k v : Bytes) (now : Int),
      (PostgresStore.Set s k v 0 now).table = pgUpsert s.table (hashKey k) k v none now := by
    intro s k v now
    unfold PostgresStore.Set
    simp [h0]
  have h1 : (PostgresStore.Set (⟨[], b⟩ : PostgresStore) k1 v1 0 now1).table
      = [⟨hashKey k1, k1, v1, none, now1⟩] := by
    rw [hset_table]
    unfold pgUpsert
    simp
  have h2 : (PostgresStore.Set (PostgresStore.Set ⟨[], b⟩ k1 v1 0 now1) k2 v2 0 now2).table
      = [⟨hashKey k1, k1, v2, none, now2⟩] := by
    rw [hset_table, h1]
    unfold pgUpsert
    simp [hcol]
  refine ⟨h2, ?_, ?_⟩
  · unfold PostgresStore.Get
    rw [h2]
    simp [rowMatches, rowLive, List.find?, hcol, hne]
  · unfold PostgresStore.Get
    rw [h2]
    simp [rowMatches, rowLive, List.find?, hcol]

/-- C2 witness: the keys `8yn0iYCKYHlIj4-BwPqk` and `GReLUrM4wMqfg9yzV3KQ`
are distinct byte strings with equal FNV-1a 64-bit digests; after the two
writes the second key reads `NotFound` and the first reads the second's
value. -/
theorem pg_digest_collision_overwrite_witness :
    PostgresStore.Get
        (PostgresStore.Set
          (PostgresStore.Set ⟨[], false⟩
            [56, 121, 110, 48, 105, 89, 67, 75, 89, 72, 108, 73, 106, 52, 45, 66, 119, 80, 113, 107]
            [1] 0 0)
          [71, 82, 101, 76, 85, 114, 77, 52, 119, 77, 113, 102, 103, 57, 121, 122, 86, 51, 75, 81]
          [2] 0 0)
        [71, 82, 101, 76, 85, 114, 77, 52, 119, 77, 113, 102, 103, 57, 121, 122, 86, 51, 75, 81] 0
        = .error .notFound
      ∧ PostgresStore.Get
        (PostgresStore.Set
          (PostgresStore.Set ⟨[], false⟩
            [56, 121, 110, 48, 105, 89, 67, 75, 89, 72, 108, 73, 106, 52, 45, 66, 119, 80, 113, 107]
            [1] 0 0)
          [71, 82, 101, 76, 85, 114, 77, 52, 119, 77, 113, 102, 103, 57, 121, 122, 86, 51, 75, 81]
          [2] 0 0)
        [56, 121, 110, 48, 105, 89, 67, 75, 89, 72, 108, 73, 106, 52, 45, 66, 119, 80, 113, 107] 0
        = .ok [2] :=
  ⟨(pg_digest_collision_overwrite
      [56, 121, 110, 48, 105, 89, 67, 75, 89, 72, 108, 73, 106, 52, 45, 66, 119, 80, 113, 107]
      [71, 82, 101, 76, 85, 114, 77, 52, 119, 77, 113, 102, 103, 57, 121, 122, 86, 51, 75, 81]
      [1] [2] 0 0 0 false (by decide) (by decide)).2.1,
   (pg_digest_collision_overwrite
      [56, 121, 110, 48, 105, 89, 67, 75, 89, 72, 108, 73, 106, 52, 45, 66, 119, 80, 113, 107]
      [71, 82, 101, 76, 85, 114, 77, 52, 119, 77, 113, 102, 103, 57, 121, 122, 86, 51, 75, 81]
      [1] [2] 0 0 0 false (by decide) (by decide)).2.2⟩

/-- C3: without encryption, `Set key value 0` followed by `Get key`
returns exactly `value` at every later time, on both backends; for the
relational backend the table is assumed free of a digest collision on this
key (the colliding case is the subject of C2). -/
theorem set_get_roundtrip_ttl0 (ms : MemoryStore) (ps : PostgresStore) (k v : Bytes)
    (now1 now2 : Int)
    (hcol : ∀ r ∈ ps.table, r.keyHash = hashKey k → r.key = k) :
    (ms.Set k v 0 now1).Get k now2 = .ok v ∧ (ps.Set k v 0 now1).Get k now2 = .ok v := by
  constructor
  · unfold MemoryStore.Get MemoryStore.Set
    simp only
    rw [mapGet_mapSet_self]
    simp [item.isExpired, show ¬((0 : Int) > 0) from by omega]
  · exact pgGet_after_set ps k v now1 now2 hcol

/-- C3 witness: a concrete round trip on both backends from empty
stores. -/
theorem set_get_roundtrip_ttl0_witness :
    (MemoryStore.Set ⟨[], false⟩ [1] [2, 3] 0 0).Get [1] 999 = .ok [2, 3]
      ∧ (PostgresStore.Set ⟨[], false⟩ [1] [2, 3] 0 0).Get [1] 999 = .ok [2, 3] :=
  set_get_roundtrip_ttl0 ⟨[], false⟩ ⟨[], false⟩ [1] [2, 3] 0 999 (by simp)

/-- C4, behaviour at the failing input: with the single live key `abc`
stored, the relational `Keys` with requested prefix `a_` returns `abc`
because the SQL `LIKE` pattern is not escaped and `_` acts as a wildcard,
although `abc` does not begin with `a_`; the in-process backend returns
the empty list for the same store contents and prefix. -/
theorem pg_keys_like_wildcard_divergence :
    PostgresStore.Keys ⟨[⟨hashKey [97, 98, 99], [97, 98, 99], [49], none, 0⟩], false⟩ [97, 95] 0
        = [[97, 98, 99]]
      ∧ MemoryStore.Keys ⟨[([97, 98, 99], ⟨[49], none⟩)], false⟩ [97, 95] 0 = []
      ∧ List.isPrefixOf [97, 95] [97, 98, 99] = false := by
  refine ⟨?_, ?_, ?_⟩ <;> rfl

/-- C8: for `ttl < 0`, `Set` behaves identically to `Set` with `ttl = 0`
on both backends: only `ttl > 0` produces an expiry timestamp. -/
theorem set_negative_ttl_eq_ttl0 (ms : MemoryStore) (ps : PostgresStore) (k v : Bytes)
    (ttl now : Int) (h : ttl < 0) :
    ms.Set k v ttl now = ms.Set k v 0 now ∧ ps.Set k v ttl now = ps.Set k v 0 now := by
  have h1 : ¬(ttl > 0) := by omega
  have h2 : ¬((0 : Int) > 0) := by omega
  constructor
  · unfold MemoryStore.Set; rw [if_neg h1, if_neg h2]
  · unfold PostgresStore.Set; rw [if_neg h1, if_neg h2]

/-- C8 witness: `ttl = -1` stores exactly what `ttl = 0` stores, on both
backends. -/
theorem set_negative_ttl_eq_ttl0_witness :
    MemoryStore.Set ⟨[], false⟩ [1] [2] (-1) 0 = MemoryStore.Set ⟨[], false⟩ [1] [2] 0 0
      ∧ PostgresStore.Set ⟨[], false⟩ [1] [2] (-1) 0 = PostgresStore.Set ⟨[], false⟩ [1] [2] 0 0 :=
  set_negative_ttl_eq_ttl0 ⟨[], false⟩ ⟨[], false⟩ [1] [2] (-1) 0 (by omega)

/-- C9: the relational `Keys` result is sorted ascending in bytewise
lexicographic order of the key strings (`ORDER BY key`), for every prefix
including the empty one. -/
theorem pg_keys_sorted (s : PostgresStore) (pfx : Bytes) (now : Int) :
    List.Sorted keyLe (s.Keys pfx now) := by
  unfold PostgresStore.Keys
  split
  · exact List.sorted_insertionSort keyLe _
  · exact List.sorted_insertionSort keyLe _

/-- C10: on both backends the first `Close` succeeds (returning `nil`) and
a second `Close` on the resulting store panics by closing an
already-closed channel, instead of returning an error. -/
theorem close_not_idempotent (d : MemData) (t : List PgRow) :
    MemoryStore.Close ⟨d, false⟩ = .ok ⟨d, true⟩
      ∧ MemoryStore.Close ⟨d, true⟩ = .error .closeOfClosedChannel
      ∧ PostgresStore.Close ⟨t, false⟩ = .ok ⟨t, true⟩
      ∧ PostgresStore.Close ⟨t, true⟩ = .error .closeOfClosedChannel :=
  ⟨rfl, rfl, rfl, rfl⟩
